import Mathlib

/-!
Verification of the RSA demonstration program in `src/main.py`.

The Python source is shallowly embedded below.  Python integers are modelled
as `ℤ` (or `ℕ` where the source value is manifestly non-negative); Python's
`%` and `//` on the arguments arising here always have a non-negative
right-hand side, where they agree with Lean's `Int.emod` / `Int.ediv`
(both give a remainder in `[0, divisor)` for a positive divisor).
`while` loops are embedded with an explicit fuel argument that is provably
sufficient; recursive functions are embedded by well-founded recursion.
A Python call that can raise (only division by zero in
`modular_exponentiation`, when `modulus = 0`) returns an `Option`.
Randomized functions (`random.randint` / `random.getrandbits`) are embedded
relationally: a predicate describes the outcomes reachable under some
sequence of draws, with the draws as explicit parameters.
Characters are modelled by their code points (`ord` / `chr` are the
identity on code points, `'?'` is code point 63).
-/

namespace RSA

/-- Remainder by a nonzero integer strictly shrinks `natAbs`
(termination measure for the Euclidean recursions below). -/
theorem natAbs_emod_lt_natAbs (a b : ℤ) (h : b ≠ 0) : (a % b).natAbs < b.natAbs := by
  have habs : a % b = a % |b| := by
    rcases abs_choice b with h1 | h1
    · rw [h1]
    · rw [h1, Int.emod_neg]
  have hpos : 0 < |b| := abs_pos.mpr h
  have h1 : 0 ≤ a % b := Int.emod_nonneg a h
  have h2 : a % b < |b| := by rw [habs]; exact Int.emod_lt_of_pos a hpos
  have h3 := Int.natAbs_lt_natAbs_of_nonneg_of_lt h1 h2
  rwa [Int.natAbs_abs] at h3

/-- The `while exponent > 0` loop of `modular_exponentiation` in
`src/main.py` (lines 13-20), with an explicit fuel argument.
State: `(result, base, exponent)`; each iteration multiplies `result` by
`base` when the low bit of `exponent` is set, squares `base`, and halves
`exponent`, all modulo `modulus`.  Any fuel `> exponent.toNat` is enough,
since `exponent` at least halves each iteration. -/
def modExpAux : ℕ → ℤ → ℤ → ℤ → ℤ → ℤ
  | 0, result, _, _, _ => result
  | fuel + 1, result, base, exponent, modulus =>
    if 0 < exponent then
      modExpAux fuel
        (if exponent % 2 = 1 then result * base % modulus else result)
        (base * base % modulus) (exponent / 2) modulus
    else result

/-- `modular_exponentiation(base, exponent, modulus)` from `src/main.py`
(lines 6-20).  The function performs no argument validation; the only way a
call can fail is the `ZeroDivisionError` raised by `base % modulus` when
`modulus == 0`, embedded as `none`. -/
def modular_exponentiation (base exponent modulus : ℤ) : Option ℤ :=
  if modulus = 0 then none
  else some (modExpAux (exponent.toNat + 1) 1 (base % modulus) exponent modulus)

/-- The `while d % 2 == 0` loop of `is_prime` (lines 57-60 of
`src/main.py`), which writes its argument as `2^r * d` with `d` odd,
with an explicit fuel argument.  Fuel `m` suffices for argument `m ≥ 1`;
the source loops forever on `0`, which is unreachable there (the argument
is `n - 1 ≥ 4`). -/
def split2Aux : ℕ → ℕ → ℕ × ℕ
  | 0, d => (0, d)
  | fuel + 1, d =>
    if d % 2 = 0 then
      let p := split2Aux fuel (d / 2)
      (p.1 + 1, p.2)
    else (0, d)

/-- `(r, d)` with `m = 2^r * d`, `d` odd — the decomposition `is_prime`
computes for `m = n - 1`. -/
def split2 (m : ℕ) : ℕ × ℕ := split2Aux m m

/-- The inner `for _ in range(r - 1)` loop of `is_prime` (lines 68-73 of
`src/main.py`): repeatedly square `x` modulo `n`; `true` means the loop hit
`x == n - 1` and broke out (the witness passes), `false` means the loop
exhausted and the `else:` clause makes `is_prime` return `False`.
The `modular_exponentiation` call has modulus `n ≥ 5` at every call site,
so it never fails; `none` is mapped to an arbitrary value. -/
def mrInner (n : ℤ) : ℤ → ℕ → Bool
  | _, 0 => false
  | x, count + 1 =>
    match modular_exponentiation x 2 n with
    | none => false
    | some x2 => if x2 = n - 1 then true else mrInner n x2 count

/-- One round of the Miller-Rabin loop of `is_prime` (lines 63-73 of
`src/main.py`) for the drawn witness `a`: `true` means the round passes
(`continue`), `false` means `is_prime` returns `False` immediately. -/
def mrRound (n d : ℤ) (r : ℕ) (a : ℤ) : Bool :=
  match modular_exponentiation a d n with
  | none => false
  | some x => if x = 1 ∨ x = n - 1 then true else mrInner n x (r - 1)

/-- `is_prime(n, k)` from `src/main.py` (lines 42-74).  The `k` random
witnesses drawn by `random.randint(2, n - 2)` are passed explicitly as the
list `ws` (one entry per round; the source draws them lazily and stops at
the first failing round, which yields the same truth value as testing all
of them). -/
def is_prime (n : ℤ) (ws : List ℤ) : Bool :=
  if n ≤ 1 then false
  else if n ≤ 3 then true
  else if n % 2 = 0 then false
  else
    let rd := split2 (n - 1).toNat
    ws.all (mrRound n (rd.2 : ℤ) rd.1)

/-- The witnesses `is_prime` draws by `random.randint(2, n - 2)` all lie in
`[2, n - 2]`. -/
def valid_draws (n : ℤ) (ws : List ℤ) : Prop := ∀ a ∈ ws, 2 ≤ a ∧ a ≤ n - 2

/-- Relational embedding of `generate_prime(bits)` from `src/main.py`
(lines 78-86): the call can return `c` iff some candidate draw
`random.getrandbits(bits)` (a uniform value in `[0, 2^bits)`; the top bit
is NOT forced) passes `is_prime` with witness draws `ws`.  Earlier
rejected candidates do not influence the returned value and are omitted. -/
def generate_prime_returns (bits c : ℕ) (ws : List ℤ) : Prop :=
  c < 2 ^ bits ∧ valid_draws (c : ℤ) ws ∧ is_prime (c : ℤ) ws = true

/-- `extended_gcd(a, b)` from `src/main.py` (lines 90-102). -/
def extended_gcd (a b : ℤ) : ℤ × ℤ × ℤ :=
  if b = 0 then (a, 1, 0)
  else
    let t := extended_gcd b (a % b)
    (t.1, t.2.2, t.2.1 - a / b * t.2.2)
termination_by b.natAbs
decreasing_by exact natAbs_emod_lt_natAbs a b (by assumption)

/-- `explain_extended_gcd(a, b)` from `src/main.py` (lines 106-119):
the same recursion as `extended_gcd` plus the textual step records, in
bottom-up order. -/
def explain_extended_gcd (a b : ℤ) : ℤ × ℤ × ℤ × List String :=
  if b = 0 then
    (a, 1, 0, ["Base case: gcd(" ++ toString a ++ ", " ++ toString b ++ ") = " ++ toString a])
  else
    let t := explain_extended_gcd b (a % b)
    let x := t.2.2.1
    let y := t.2.1 - a / b * t.2.2.1
    (t.1, x, y,
      t.2.2.2 ++
        ["gcd(" ++ toString a ++ ", " ++ toString b ++ "): x = " ++ toString x
          ++ ", y = " ++ toString y])
termination_by b.natAbs
decreasing_by exact natAbs_emod_lt_natAbs a b (by assumption)

/-- The deterministic tail of `generate_rsa_keys` (lines 135-153 of
`src/main.py`) once the random draws `p`, `q` (from `generate_prime`) and
`e` (from `random.randint(2, phi - 1)`) are fixed: `n = p*q`,
`phi = (p-1)*(q-1)`, `d` is the second component of
`explain_extended_gcd(e, phi)` reduced into `[0, phi)` (Python's `%` with
positive modulus is already non-negative, so the `if d < 0` branch of the
source is dead code).  Returns `((e, n), (d, n))`. -/
def rsa_keys_from (p q e : ℕ) : (ℤ × ℤ) × (ℤ × ℤ) :=
  let n : ℤ := (p : ℤ) * (q : ℤ)
  let phi : ℤ := ((p : ℤ) - 1) * ((q : ℤ) - 1)
  let d0 := (explain_extended_gcd (e : ℤ) phi).2.1 % phi
  let d := if d0 < 0 then d0 + phi else d0
  (((e : ℤ), n), (d, n))

/-- Relational embedding of `generate_rsa_keys(bits)` from `src/main.py`
(lines 123-153): the call can return `keys` iff prime generation can
return `p` and `q` (each of `bits // 2` requested bits, with witness draws
`pws`, `qws`), the exponent loop can exit with draw `e` (a value of
`randint(2, phi - 1)` with `gcd(e, phi) == 1`; rejected draws are
observationally irrelevant and omitted), and `keys` is the deterministic
result computed from `p`, `q`, `e`. -/
def generate_rsa_keys_returns (bits p q e : ℕ) (pws qws : List ℤ)
    (keys : (ℤ × ℤ) × (ℤ × ℤ)) : Prop :=
  generate_prime_returns (bits / 2) p pws ∧
  generate_prime_returns (bits / 2) q qws ∧
  2 ≤ e ∧ e ≤ (p - 1) * (q - 1) - 1 ∧
  Nat.gcd e ((p - 1) * (q - 1)) = 1 ∧
  keys = rsa_keys_from p q e

/-- A Python list comprehension / accumulation loop over `l` whose body can
raise: the first failing element aborts the whole call. -/
def mapOption {α β : Type} (f : α → Option β) : List α → Option (List β)
  | [] => some []
  | a :: l =>
    match f a, mapOption f l with
    | some b, some bs => some (b :: bs)
    | _, _ => none

/-- `encrypt_rsa(message, public_key)` from `src/main.py` (lines 157-166).
The message is the list of code points of its characters
(`ord(char)` for each `char`). -/
def encrypt_rsa (message : List ℕ) (public_key : ℤ × ℤ) : Option (List ℤ) :=
  mapOption (fun c => modular_exponentiation (c : ℤ) public_key.1 public_key.2) message

/-- `decrypt_rsa(ciphertext, private_key)` from `src/main.py`
(lines 170-186).  The returned string is the list of code points of its
characters: a decrypted value `v` in the valid Unicode range
`[0, 1114111]` contributes `chr(v)` (code point `v`), any other value
contributes the placeholder `"?"` (code point 63). -/
def decrypt_rsa (ciphertext : List ℤ) (private_key : ℤ × ℤ) : Option (List ℕ) :=
  mapOption (fun c =>
    (modular_exponentiation c private_key.1 private_key.2).map
      (fun v => if 0 ≤ v ∧ v ≤ 1114111 then v.toNat else 63)) ciphertext

/-! ### Correctness of `modular_exponentiation` -/

/-- Loop invariant of the square-and-multiply loop: with enough fuel, a
positive modulus and an already-reduced accumulator, the loop computes
`r * b ^ e mod m`. -/
theorem modExpAux_spec : ∀ (fuel : ℕ) (e : ℕ) (r b m : ℤ), e < fuel → 0 < m → r % m = r →
    modExpAux fuel r b (e : ℤ) m = r * b ^ e % m := by
  intro fuel
  induction fuel with
  | zero => intro e r b m he; omega
  | succ fuel ih =>
    intro e r b m he hm hr
    rcases Nat.eq_zero_or_pos e with he0 | hepos
    · subst he0
      simp [modExpAux, hr]
    · have hgt : (0 : ℤ) < (e : ℤ) := by exact_mod_cast hepos
      have hlt : e / 2 < fuel := by omega
      have hcast2 : ((e / 2 : ℕ) : ℤ) = (e : ℤ) / 2 := rfl
      have hmodeq : ∀ a : ℤ, a % m ≡ a [ZMOD m] := fun a => Int.emod_emod_of_dvd a dvd_rfl
      rcases Nat.mod_two_eq_zero_or_one e with he2 | he2
      · have he2' : ¬ ((e : ℤ) % 2 = 1) := by omega
        obtain ⟨t, ht⟩ : ∃ t, e = 2 * t := ⟨e / 2, by omega⟩
        have hdiv : e / 2 = t := by omega
        simp only [modExpAux, hgt, if_pos, he2', if_neg, if_false]
        rw [← hcast2, hdiv]
        rw [ih t r (b * b % m) m (by omega) hm hr]
        have hcong : r * (b * b % m) ^ t ≡ r * (b * b) ^ t [ZMOD m] :=
          (Int.ModEq.refl r).mul ((hmodeq (b * b)).pow t)
        calc r * (b * b % m) ^ t % m = r * (b * b) ^ t % m := hcong
          _ = r * b ^ e % m := by rw [ht]; ring_nf
      · have he2' : ((e : ℤ) % 2 = 1) := by omega
        obtain ⟨t, ht⟩ : ∃ t, e = 2 * t + 1 := ⟨e / 2, by omega⟩
        have hdiv : e / 2 = t := by omega
        simp only [modExpAux, hgt, if_pos, he2', if_true]
        rw [← hcast2, hdiv]
        have hr' : (r * b % m) % m = r * b % m := Int.emod_emod_of_dvd _ dvd_rfl
        rw [ih t (r * b % m) (b * b % m) m (by omega) hm hr']
        have hcong : (r * b % m) * (b * b % m) ^ t ≡ (r * b) * (b * b) ^ t [ZMOD m] :=
          (hmodeq (r * b)).mul ((hmodeq (b * b)).pow t)
        calc (r * b % m) * (b * b % m) ^ t % m = (r * b) * (b * b) ^ t % m := hcong
          _ = r * b ^ e % m := by rw [ht]; ring_nf

/-- For a non-negative exponent and modulus `> 1`, `modular_exponentiation`
returns exactly `base ^ exponent mod modulus`. -/
theorem modexp_int_spec (b e m : ℤ) (he : 0 ≤ e) (hm : 1 < m) :
    modular_exponentiation b e m = some (b ^ e.toNat % m) := by
  unfold modular_exponentiation
  rw [if_neg (by omega)]
  have h1 : (1 : ℤ) % m = 1 := Int.emod_eq_of_lt (by norm_num) hm
  have hs := modExpAux_spec (e.toNat + 1) e.toNat 1 (b % m) m (by omega) (by omega) h1
  rw [Int.toNat_of_nonneg he] at hs
  rw [hs, one_mul]
  congr 1
  have hbm : b % m ≡ b [ZMOD m] := Int.emod_emod_of_dvd b dvd_rfl
  exact hbm.pow e.toNat

/-- `ℕ`-level reading of `modexp_int_spec`. -/
theorem modexp_nat_spec (a k n : ℕ) (hn : 1 < n) :
    modular_exponentiation (a : ℤ) (k : ℤ) (n : ℤ) = some ((a ^ k % n : ℕ) : ℤ) := by
  rw [modexp_int_spec (a : ℤ) (k : ℤ) (n : ℤ) (by positivity) (by exact_mod_cast hn)]
  congr 1
  rw [Int.toNat_natCast]
  push_cast
  rfl

/-- Claim C2: for every base, every exponent `≥ 0` and every modulus `> 1`,
`modular_exponentiation(base, exponent, modulus)` equals
`(base ** exponent) mod modulus` and the result lies in `[0, modulus)`. -/
theorem C2_modexp_correct (base exponent modulus : ℤ)
    (hexp : 0 ≤ exponent) (hmod : 1 < modulus) :
    modular_exponentiation base exponent modulus
      = some (base ^ exponent.toNat % modulus) ∧
    0 ≤ base ^ exponent.toNat % modulus ∧
    base ^ exponent.toNat % modulus < modulus :=
  ⟨modexp_int_spec base exponent modulus hexp hmod,
   Int.emod_nonneg _ (by omega), Int.emod_lt_of_pos _ (by omega)⟩

/-- Witness for C2 at the spec's own concrete scenario `65^17 mod 3233`. -/
theorem C2_witness :
    modular_exponentiation 65 17 3233 = some (65 ^ (17 : ℤ).toNat % 3233) ∧
    0 ≤ (65 : ℤ) ^ (17 : ℤ).toNat % 3233 ∧
    (65 : ℤ) ^ (17 : ℤ).toNat % 3233 < 3233 :=
  C2_modexp_correct 65 17 3233 (by decide) (by decide)

/-- Counterexample to claim C6: `modular_exponentiation` performs no
argument validation.  With `exponent = -3 < 0` it returns the normal value
`1` (no `InvalidExponent`), and with `modulus = 1 ≤ 1` it returns the
normal value `0` (no `InvalidModulus`). -/
theorem C6_counterexample :
    modular_exponentiation 2 (-3) 5 = some 1 ∧
    modular_exponentiation 5 3 1 = some 0 := by decide

/-- Claim C6 as amended: `modular_exponentiation` validates nothing.  Every
call with a nonzero modulus returns a normal result — in particular any
call with a negative exponent returns the initial accumulator `1`
untouched — and only `modulus = 0` fails (the `ZeroDivisionError` of
`base % 0`, the sole error the function can signal). -/
theorem C6_amended :
    (∀ b e m : ℤ, m ≠ 0 → (modular_exponentiation b e m).isSome = true) ∧
    (∀ b e m : ℤ, e < 0 → m ≠ 0 → modular_exponentiation b e m = some 1) ∧
    (∀ b e : ℤ, modular_exponentiation b e 0 = none) := by
  refine ⟨fun b e m hm => ?_, fun b e m he hm => ?_, fun b e => ?_⟩
  · simp [modular_exponentiation, hm]
  · have h0 : ¬ (0 : ℤ) < e := by omega
    simp [modular_exponentiation, hm, modExpAux, h0]
  · simp [modular_exponentiation]

/-- Witness for C6 as amended, at `(2, -3, 5)`, `(7, -2, -3)` and `(4, 5, 0)`. -/
theorem C6_witness :
    (modular_exponentiation 2 (-3) 5).isSome = true ∧
    modular_exponentiation 7 (-2) (-3) = some 1 ∧
    modular_exponentiation 4 5 0 = none :=
  ⟨C6_amended.1 2 (-3) 5 (by decide),
   C6_amended.2.1 7 (-2) (-3) (by decide) (by decide),
   C6_amended.2.2 4 5⟩

/-- Claim C8: `is_prime` settles the small cases deterministically, for any
number of rounds and any sequence of random draws `ws`: `n ≤ 1` is
rejected, `2` and `3` are accepted, and any even `n > 3` is rejected. -/
theorem C8_is_prime_small_cases (n : ℤ) (ws : List ℤ) :
    (n ≤ 1 → is_prime n ws = false) ∧
    (n = 2 ∨ n = 3 → is_prime n ws = true) ∧
    (3 < n → n % 2 = 0 → is_prime n ws = false) := by
  refine ⟨fun h => ?_, fun h => ?_, fun h3 h2 => ?_⟩
  · unfold is_prime
    rw [if_pos h]
  · unfold is_prime
    rw [if_neg (by omega), if_pos (by omega)]
  · unfold is_prime
    rw [if_neg (by omega), if_neg (by omega), if_pos h2]

/-- Witness for C8 at `n = 0`, `n = 2` and `n = 10` (draws `[2]`). -/
theorem C8_witness :
    is_prime 0 [2] = false ∧ is_prime 2 [2] = true ∧ is_prime 10 [2] = false :=
  ⟨(C8_is_prime_small_cases 0 [2]).1 (by decide),
   (C8_is_prime_small_cases 2 [2]).2.1 (Or.inl rfl),
   (C8_is_prime_small_cases 10 [2]).2.2 (by decide) (by decide)⟩

/-! ### Correctness of `extended_gcd` and its diagnostic variant -/

/-- One Euclidean step preserves the (non-negative) gcd. -/
theorem gcd_step (a b : ℤ) : Int.gcd b (a % b) = Int.gcd a b := by
  have hab : b * (a / b) + a % b = a := Int.ediv_add_emod a b
  apply Nat.dvd_antisymm
  · rw [← Int.natCast_dvd_natCast]
    apply Int.dvd_gcd
    · calc ((Int.gcd b (a % b) : ℕ) : ℤ) ∣ b * (a / b) + a % b :=
        dvd_add (Dvd.dvd.mul_right (Int.gcd_dvd_left) _) Int.gcd_dvd_right
      _ = a := hab
    · exact Int.gcd_dvd_left
  · rw [← Int.natCast_dvd_natCast]
    apply Int.dvd_gcd
    · exact Int.gcd_dvd_right
    · have : a % b = a - b * (a / b) := Int.emod_def a b
      rw [this]
      exact dvd_sub Int.gcd_dvd_left (Dvd.dvd.mul_right Int.gcd_dvd_right _)

/-- For `b ≥ 0`, `extended_gcd` satisfies the Bezout identity, and its first
component is the true gcd as soon as `a ≥ 0` or `b > 0` (the base case
`extended_gcd a 0 = (a, 1, 0)` returns a negative `g` for negative `a`). -/
theorem extended_gcd_spec (a b : ℤ) (hb : 0 ≤ b) :
    a * (extended_gcd a b).2.1 + b * (extended_gcd a b).2.2 = (extended_gcd a b).1 ∧
    ((0 ≤ a ∨ 0 < b) → (extended_gcd a b).1 = (Int.gcd a b : ℤ)) := by
  induction a, b using extended_gcd.induct with
  | case1 a =>
    have h0 : extended_gcd a 0 = (a, 1, 0) := by
      rw [extended_gcd]
      rw [if_pos rfl]
    rw [h0]
    refine ⟨by ring, fun h => ?_⟩
    rcases h with h | h
    · rw [Int.gcd_zero_right, Int.natAbs_of_nonneg h]
    · exact absurd h (lt_irrefl 0)
  | case2 a b hb0 ih =>
    have hrnn : 0 ≤ a % b := Int.emod_nonneg a hb0
    obtain ⟨ihb, ihg⟩ := ih hrnn
    have hstep : extended_gcd a b = ((extended_gcd b (a % b)).1, (extended_gcd b (a % b)).2.2,
        (extended_gcd b (a % b)).2.1 - a / b * (extended_gcd b (a % b)).2.2) := by
      rw [extended_gcd, if_neg hb0]
    rw [hstep]
    constructor
    · set x1 := (extended_gcd b (a % b)).2.1 with hx1
      set y1 := (extended_gcd b (a % b)).2.2 with hy1
      set g := (extended_gcd b (a % b)).1 with hg
      have hd : a % b = a - b * (a / b) := Int.emod_def a b
      rw [hd] at ihb
      simp only
      linear_combination ihb
    · intro _
      simp only
      rw [ihg (Or.inl (by omega)), gcd_step]

/-- Counterexample to claim C3: at `a = -1`, `b = 0` the function returns
`g = -1`, but `gcd(-1, 0) = 1`, so `g = gcd(a, b)` fails for negative `a`
with `b = 0` (the base case returns `a` itself, sign included). -/
theorem C3_counterexample :
    extended_gcd (-1) 0 = (-1, 1, 0) ∧ (extended_gcd (-1) 0).1 ≠ (Int.gcd (-1) 0 : ℤ) := by
  have h : extended_gcd (-1) 0 = (-1, 1, 0) := by
    rw [extended_gcd]
    rw [if_pos rfl]
  refine ⟨h, ?_⟩
  rw [h]
  decide

/-- Claim C3 as amended: for every `a` and every `b ≥ 0`, `extended_gcd`
returns `(g, x, y)` with `a*x + b*y = g`, and `g = gcd(a, b)` holds
whenever additionally `a ≥ 0` or `b > 0` (for `a < 0`, `b = 0` the code
returns `g = a < 0`); in particular for coprime inputs in that region it
returns `g = 1` with `a*x + b*y = 1`. -/
theorem C3_extended_gcd_correct (a b : ℤ) (hb : 0 ≤ b) :
    a * (extended_gcd a b).2.1 + b * (extended_gcd a b).2.2 = (extended_gcd a b).1 ∧
    ((0 ≤ a ∨ 0 < b) → (extended_gcd a b).1 = (Int.gcd a b : ℤ)) ∧
    (Int.gcd a b = 1 → (0 ≤ a ∨ 0 < b) →
      (extended_gcd a b).1 = 1 ∧
      a * (extended_gcd a b).2.1 + b * (extended_gcd a b).2.2 = 1) := by
  obtain ⟨h1, h2⟩ := extended_gcd_spec a b hb
  refine ⟨h1, h2, fun hco hpos => ?_⟩
  have hg := h2 hpos
  rw [hco] at hg
  norm_num at hg
  exact ⟨hg, by rw [h1, hg]⟩

/-- Witness for C3 as amended at the key-generation pair `(17, 3120)`. -/
theorem C3_witness :
    (0 : ℤ) ≤ 3120 ∧
    (17 * (extended_gcd 17 3120).2.1 + 3120 * (extended_gcd 17 3120).2.2
        = (extended_gcd 17 3120).1 ∧
      ((0 : ℤ) ≤ 17 ∨ (0 : ℤ) < 3120 → (extended_gcd 17 3120).1 = (Int.gcd 17 3120 : ℤ)) ∧
      (Int.gcd 17 3120 = 1 → ((0 : ℤ) ≤ 17 ∨ (0 : ℤ) < 3120) →
        (extended_gcd 17 3120).1 = 1 ∧
        17 * (extended_gcd 17 3120).2.1 + 3120 * (extended_gcd 17 3120).2.2 = 1)) :=
  ⟨by decide, C3_extended_gcd_correct 17 3120 (by decide)⟩

/-- The diagnostic variant computes the same `(g, x, y)` as `extended_gcd`;
the step strings are carried along without influencing the numbers. -/
theorem explain_extended_gcd_eq (a b : ℤ) :
    ((explain_extended_gcd a b).1, (explain_extended_gcd a b).2.1,
      (explain_extended_gcd a b).2.2.1) = extended_gcd a b := by
  induction a, b using explain_extended_gcd.induct with
  | case1 a =>
    have h1 : (explain_extended_gcd a 0).1 = a := by
      rw [explain_extended_gcd]
      rw [if_pos rfl]
    have h2 : (explain_extended_gcd a 0).2.1 = 1 := by
      rw [explain_extended_gcd]
      rw [if_pos rfl]
    have h3 : (explain_extended_gcd a 0).2.2.1 = 0 := by
      rw [explain_extended_gcd]
      rw [if_pos rfl]
    have h0 : extended_gcd a 0 = (a, 1, 0) := by
      rw [extended_gcd]
      rw [if_pos rfl]
    rw [h1, h2, h3, h0]
  | case2 a b hb0 ih =>
    have h1 : (explain_extended_gcd b (a % b)).1 = (extended_gcd b (a % b)).1 :=
      congrArg (fun p => p.1) ih
    have h2 : (explain_extended_gcd b (a % b)).2.1 = (extended_gcd b (a % b)).2.1 :=
      congrArg (fun p => p.2.1) ih
    have h3 : (explain_extended_gcd b (a % b)).2.2.1 = (extended_gcd b (a % b)).2.2 :=
      congrArg (fun p => p.2.2) ih
    have hstep : extended_gcd a b = ((extended_gcd b (a % b)).1, (extended_gcd b (a % b)).2.2,
        (extended_gcd b (a % b)).2.1 - a / b * (extended_gcd b (a % b)).2.2) := by
      rw [extended_gcd, if_neg hb0]
    have hE1 : (explain_extended_gcd a b).1 = (explain_extended_gcd b (a % b)).1 := by
      rw [explain_extended_gcd, if_neg hb0]
    have hE2 : (explain_extended_gcd a b).2.1 = (explain_extended_gcd b (a % b)).2.2.1 := by
      rw [explain_extended_gcd, if_neg hb0]
    have hE3 : (explain_extended_gcd a b).2.2.1 = (explain_extended_gcd b (a % b)).2.1
        - a / b * (explain_extended_gcd b (a % b)).2.2.1 := by
      rw [explain_extended_gcd, if_neg hb0]
    rw [hstep, hE1, hE2, hE3, h1, h2, h3]

/-- Claim C9: for every `a` and every `b ≥ 0`, the first three components
of `explain_extended_gcd(a, b)` equal the triple returned by
`extended_gcd(a, b)`; the appended step records are purely observational. -/
theorem C9_explain_extended_gcd_matches (a b : ℤ) (hb : 0 ≤ b) :
    ((explain_extended_gcd a b).1, (explain_extended_gcd a b).2.1,
      (explain_extended_gcd a b).2.2.1) = extended_gcd a b :=
  explain_extended_gcd_eq a b

/-- Witness for C9 at `(3, 4)`. -/
theorem C9_witness :
    (0 : ℤ) ≤ 4 ∧
    ((explain_extended_gcd 3 4).1, (explain_extended_gcd 3 4).2.1,
      (explain_extended_gcd 3 4).2.2.1) = extended_gcd 3 4 :=
  ⟨by decide, C9_explain_extended_gcd_matches 3 4 (by decide)⟩

/-! ### Cipher totality and key-generation degeneracy -/

/-- If the body succeeds on every element, the comprehension succeeds and
is the plain map. -/
theorem mapOption_some {α β : Type} (f : α → Option β) (g : α → β) (l : List α)
    (h : ∀ a ∈ l, f a = some (g a)) : mapOption f l = some (l.map g) := by
  induction l with
  | nil => rfl
  | cons a l ih =>
    have ha := h a (List.mem_cons_self a l)
    have hl := ih (fun x hx => h x (List.mem_cons_of_mem a hx))
    simp [mapOption, ha, hl]

/-- Claim C7: for a private key `(d, n)` with `n > 1` (and `d ≥ 0`, as all
generated private exponents are) and any finite sequence of non-negative
integers as ciphertext, `decrypt_rsa` always succeeds and maps each
element independently: a decrypted value `c^d mod n` in `[0, 1114111]`
becomes the character with that code point, any other value becomes the
placeholder `'?'` (code point 63) — one invalid element never aborts the
rest. -/
theorem C7_decrypt_total (d n : ℤ) (hn : 1 < n) (hd : 0 ≤ d)
    (ct : List ℤ) (hct : ∀ c ∈ ct, 0 ≤ c) :
    decrypt_rsa ct (d, n) = some (ct.map (fun c =>
      if c ^ d.toNat % n ≤ 1114111 then (c ^ d.toNat % n).toNat else 63)) := by
  apply mapOption_some
  intro c hc
  rw [modexp_int_spec c d n hd hn]
  simp only [Option.map_some']
  congr 1
  have hv : 0 ≤ c ^ d.toNat % n := Int.emod_nonneg _ (by omega)
  by_cases hle : c ^ d.toNat % n ≤ 1114111
  · rw [if_pos ⟨hv, hle⟩, if_pos hle]
  · rw [if_neg (fun hcon => hle hcon.2), if_neg hle]

/-- Witness for C7: key `(1, 2000000)`, ciphertext `[1999999, 65]` — the
first element decrypts outside the Unicode range (placeholder), the second
to `'A'`; decryption still succeeds on both. -/
theorem C7_witness :
    (1 : ℤ) < 2000000 ∧ (0 : ℤ) ≤ 1 ∧ (∀ c ∈ [(1999999 : ℤ), 65], 0 ≤ c) ∧
    decrypt_rsa [1999999, 65] (1, 2000000) = some ([(1999999 : ℤ), 65].map (fun c =>
      if c ^ (1 : ℤ).toNat % 2000000 ≤ 1114111
      then (c ^ (1 : ℤ).toNat % 2000000).toNat else 63)) :=
  ⟨by decide, by decide, by decide,
   C7_decrypt_total 1 2000000 (by decide) (by decide) [1999999, 65] (by decide)⟩

/-- Counterexample to claim C5: `generate_rsa_keys(2)` computes
`generate_prime(2 // 2)`, and no candidate below `2^1 = 2` can ever pass
`is_prime`, so the call loops forever — it does not fail with
`InvalidKeySize` (no such check exists in the code). -/
theorem C5_counterexample : ¬ ∃ (c : ℕ) (ws : List ℤ), generate_prime_returns (2 / 2) c ws := by
  rintro ⟨c, ws, hc, hv, hp⟩
  norm_num at hc
  interval_cases c <;> simp [is_prime] at hp

/-- Claim C5 as amended: a total bit width below 4 is not rejected — the
code has no `InvalidKeySize` check; instead `generate_prime(bits // 2)`
can accept no candidate (every value below `2^1` fails `is_prime`), so
`generate_rsa_keys` can never return and loops forever. -/
theorem C5_keygen_diverges (bits : ℕ) (h : bits < 4) :
    (∀ (c : ℕ) (ws : List ℤ), ¬ generate_prime_returns (bits / 2) c ws) ∧
    (∀ (p q e : ℕ) (pws qws : List ℤ) (keys : (ℤ × ℤ) × (ℤ × ℤ)),
      ¬ generate_rsa_keys_returns bits p q e pws qws keys) := by
  have hmain : ∀ (c : ℕ) (ws : List ℤ), ¬ generate_prime_returns (bits / 2) c ws := by
    rintro c ws ⟨hc, hv, hp⟩
    have hb : bits / 2 ≤ 1 := by omega
    have hc2 : c < 2 := by
      have h21 : (2 : ℕ) ^ (bits / 2) ≤ 2 ^ 1 := Nat.pow_le_pow_right (by norm_num) hb
      omega
    interval_cases c <;> simp [is_prime] at hp
  exact ⟨hmain, fun p q e pws qws keys hk => hmain p pws hk.1⟩

/-- Witness for C5 as amended, at total width 2. -/
theorem C5_witness :
    (¬ generate_prime_returns (2 / 2) 1 []) ∧
    (¬ generate_rsa_keys_returns 2 3 3 3 [] [] ((3, 9), (3, 9))) :=
  ⟨(C5_keygen_diverges 2 (by decide)).1 1 [],
   (C5_keygen_diverges 2 (by decide)).2 3 3 3 [] [] ((3, 9), (3, 9))⟩

/-- Counterexample to claim C4: `generate_prime(3)` can return `3`
(the draw `random.getrandbits(3) = 3` passes `is_prime` with no witness
draws), and `3` does not have its top bit (index 2) set — the code uses
`getrandbits`, which does not force the top bit. -/
theorem C4_counterexample : generate_prime_returns 3 3 [] ∧ ¬ 2 ^ (3 - 1) ≤ 3 := by
  constructor
  · refine ⟨by norm_num, by simp [valid_draws], by decide⟩
  · decide

/-- Claim C4 as amended: for `bits > 1`, any value returned by
`generate_prime(bits)` lies below `2^bits` (at most `bits` significant
bits; the top bit is not necessarily set), is at least 2, and passed
`is_prime` under the witness draws of its accepting run. -/
theorem C4_generate_prime_spec (bits c : ℕ) (ws : List ℤ) (hb : 1 < bits)
    (h : generate_prime_returns bits c ws) :
    c < 2 ^ bits ∧ 2 ≤ c ∧ is_prime (c : ℤ) ws = true := by
  obtain ⟨hc, hv, hp⟩ := h
  refine ⟨hc, ?_, hp⟩
  by_contra hlt
  push_neg at hlt
  interval_cases c <;> simp [is_prime] at hp

/-- Witness for C4 as amended at `bits = 3`, accepted value 3. -/
theorem C4_witness :
    1 < 3 ∧ generate_prime_returns 3 3 [] ∧
    (3 < 2 ^ 3 ∧ 2 ≤ 3 ∧ is_prime ((3 : ℕ) : ℤ) [] = true) :=
  ⟨by decide, ⟨by norm_num, by simp [valid_draws], by decide⟩,
   C4_generate_prime_spec 3 3 [] (by decide) ⟨by norm_num, by simp [valid_draws], by decide⟩⟩

/-! ### RSA key and round-trip correctness -/

/-- Subtracting a multiple of the modulus does not change the remainder. -/
theorem sub_mul_emod_left (a b c : ℤ) : (a - b * c) % b = a % b := by
  have h : a - b * c ≡ a - 0 [ZMOD b] :=
    (Int.ModEq.refl a).sub (Int.modEq_zero_iff_dvd.mpr ⟨c, rfl⟩)
  rw [sub_zero] at h
  exact h

/-- Fermat's little theorem in the form key recovery needs: for prime `P`
and an exponent `k ≥ 1` congruent to 1 modulo `P - 1`, `m^k ≡ m (mod P)`
for every `m` (divisible by `P` or not). -/
theorem pow_modeq_self_of_prime (P k m : ℕ) (hp : P.Prime) (hk1 : 1 ≤ k)
    (hmod : k ≡ 1 [MOD P - 1]) : m ^ k ≡ m [MOD P] := by
  by_cases hdvd : P ∣ m
  · have h1 : m ≡ 0 [MOD P] := (Nat.modEq_zero_iff_dvd).mpr hdvd
    have h2 : m ^ k ≡ 0 [MOD P] := (Nat.modEq_zero_iff_dvd).mpr (dvd_pow hdvd (by omega))
    exact h2.trans h1.symm
  · have hco : Nat.Coprime m P := ((Nat.Prime.coprime_iff_not_dvd hp).mpr hdvd).symm
    obtain ⟨t, ht⟩ : ∃ t, k = 1 + (P - 1) * t := by
      have hd : (P - 1) ∣ (k - 1) := (Nat.modEq_iff_dvd' hk1).mp hmod.symm
      obtain ⟨t, ht⟩ := hd
      exact ⟨t, by omega⟩
    rw [ht, pow_add, pow_one, pow_mul]
    have heuler : m ^ (P - 1) ≡ 1 [MOD P] := by
      have h := Nat.ModEq.pow_totient hco
      rwa [Nat.totient_prime hp] at h
    calc m * (m ^ (P - 1)) ^ t ≡ m * 1 ^ t [MOD P] := (Nat.ModEq.refl m).mul (heuler.pow t)
      _ = m := by rw [one_pow, mul_one]

/-- The defining RSA identity: for distinct primes `p ≠ q` and an exponent
`k ≡ 1 (mod (p-1)(q-1))`, `k ≥ 1`, raising to the `k` is the identity
modulo `p*q` — for every `m`, coprime or not. -/
theorem rsa_pow_roundtrip (p q k m : ℕ) (hp : p.Prime) (hq : q.Prime) (hne : p ≠ q)
    (hk1 : 1 ≤ k) (hk : k ≡ 1 [MOD (p - 1) * (q - 1)]) : m ^ k ≡ m [MOD p * q] := by
  have hco : Nat.Coprime p q := (Nat.coprime_primes hp hq).mpr hne
  rw [← Nat.modEq_and_modEq_iff_modEq_mul hco]
  constructor
  · exact pow_modeq_self_of_prime p k m hp hk1 (hk.of_dvd (dvd_mul_right _ _))
  · exact pow_modeq_self_of_prime q k m hq hk1 (hk.of_dvd (dvd_mul_left _ _))

/-- For distinct primes, Euler's totient `(p-1)*(q-1)` is at least 2. -/
theorem phi_two_le (p q : ℕ) (hp : p.Prime) (hq : q.Prime) (hne : p ≠ q) :
    2 ≤ (p - 1) * (q - 1) := by
  have hp2 := hp.two_le
  have hq2 := hq.two_le
  rcases Nat.lt_or_ge p 3 with h3 | h3
  · have hq3 : 3 ≤ q := by omega
    calc 2 ≤ (q - 1) := by omega
      _ = 1 * (q - 1) := (one_mul _).symm
      _ ≤ (p - 1) * (q - 1) := Nat.mul_le_mul_right _ (by omega)
  · calc 2 = 2 * 1 := rfl
      _ ≤ (p - 1) * (q - 1) := Nat.mul_le_mul (by omega) (by omega)

/-- What `generate_rsa_keys` computes once its draws are fixed: provided
`gcd(e, phi) = 1` and `phi ≥ 2`, the private exponent `D` derived through
`explain_extended_gcd` and the reduction into `[0, phi)` is a genuine
modular inverse: `e * D ≡ 1 (mod (p-1)(q-1))`, with `D ≥ 1`. -/
theorem rsa_keys_from_spec (p q e : ℕ) (hp : 1 ≤ p) (hq : 1 ≤ q)
    (hphi : 2 ≤ (p - 1) * (q - 1)) (he : 1 ≤ e)
    (hco : Nat.gcd e ((p - 1) * (q - 1)) = 1) :
    ∃ D : ℕ, rsa_keys_from p q e = (((e : ℤ), ((p * q : ℕ) : ℤ)), ((D : ℤ), ((p * q : ℕ) : ℤ))) ∧
      1 ≤ D ∧ e * D ≡ 1 [MOD (p - 1) * (q - 1)] := by
  have hcast : (((p - 1) * (q - 1) : ℕ) : ℤ) = ((p : ℤ) - 1) * ((q : ℤ) - 1) := by
    rw [Nat.cast_mul]
    have h1 : ((p - 1 : ℕ) : ℤ) = (p : ℤ) - 1 := by omega
    have h2 : ((q - 1 : ℕ) : ℤ) = (q : ℤ) - 1 := by omega
    rw [h1, h2]
  set phiZ : ℤ := ((p : ℤ) - 1) * ((q : ℤ) - 1) with hphiZ
  have hphiZ2 : 2 ≤ phiZ := by
    rw [← hcast]
    exact_mod_cast hphi
  set X : ℤ := (extended_gcd (e : ℤ) phiZ).2.1 with hX
  set Y : ℤ := (extended_gcd (e : ℤ) phiZ).2.2 with hY
  have hxe : (explain_extended_gcd (e : ℤ) phiZ).2.1 = X :=
    congrArg (fun t => t.2.1) (explain_extended_gcd_eq (e : ℤ) phiZ)
  obtain ⟨hbez, hgcd⟩ := extended_gcd_spec (e : ℤ) phiZ (by omega)
  have hg1 : (extended_gcd (e : ℤ) phiZ).1 = 1 := by
    rw [hgcd (Or.inl (by positivity))]
    rw [← hcast, Int.gcd_natCast_natCast, hco]
    norm_num
  rw [hg1] at hbez
  set d0 : ℤ := X % phiZ with hd0
  have hd0nn : 0 ≤ d0 := Int.emod_nonneg X (by omega)
  have hd0lt : d0 < phiZ := Int.emod_lt_of_pos X (by omega)
  have hkeys : rsa_keys_from p q e = (((e : ℤ), ((p * q : ℕ) : ℤ)), (d0, ((p * q : ℕ) : ℤ))) := by
    simp only [rsa_keys_from]
    rw [← hphiZ, hxe, ← hd0]
    rw [if_neg (not_lt.mpr hd0nn)]
    push_cast
    rfl
  have hcong : ((e : ℤ) * d0) % phiZ = 1 % phiZ := by
    have hX1 : (e : ℤ) * X = 1 - phiZ * Y := by linarith [hbez]
    have hmd : ((e : ℤ) * d0) % phiZ = ((e : ℤ) * X) % phiZ := by
      have hme : d0 ≡ X [ZMOD phiZ] := Int.emod_emod_of_dvd X dvd_rfl
      exact (Int.ModEq.refl (e : ℤ)).mul hme
    rw [hmd, hX1, sub_mul_emod_left]
  have h1mod : (1 : ℤ) % phiZ = 1 := Int.emod_eq_of_lt (by norm_num) (by omega)
  have hd0pos : 1 ≤ d0 := by
    rcases lt_or_le d0 1 with hlt | hle
    · exfalso
      have hd00 : d0 = 0 := by omega
      rw [hd00, mul_zero, Int.zero_emod, h1mod] at hcong
      norm_num at hcong
    · exact hle
  refine ⟨d0.toNat, ?_, by omega, ?_⟩
  · rw [hkeys, Int.toNat_of_nonneg hd0nn]
  · show (e * d0.toNat) % ((p - 1) * (q - 1)) = 1 % ((p - 1) * (q - 1))
    have hz : (((e * d0.toNat) % ((p - 1) * (q - 1)) : ℕ) : ℤ)
        = (((1 % ((p - 1) * (q - 1)) : ℕ)) : ℤ) := by
      have hl : (((e * d0.toNat) % ((p - 1) * (q - 1)) : ℕ) : ℤ)
          = ((e * d0.toNat : ℕ) : ℤ) % (((p - 1) * (q - 1) : ℕ) : ℤ) := rfl
      have hr : ((1 % ((p - 1) * (q - 1)) : ℕ) : ℤ)
          = ((1 : ℕ) : ℤ) % (((p - 1) * (q - 1) : ℕ) : ℤ) := rfl
      rw [hl, hr, hcast]
      push_cast [Int.toNat_of_nonneg hd0nn]
      exact hcong
    exact_mod_cast hz

/-- `mapOption` on a cons whose head and tail both succeed. -/
theorem mapOption_cons_some {α β : Type} (f : α → Option β) (a : α) (l : List α)
    (b : β) (bs : List β) (ha : f a = some b) (hl : mapOption f l = some bs) :
    mapOption f (a :: l) = some (b :: bs) := by
  unfold mapOption
  rw [ha, hl]

/-- Encryption of a list of natural code points under a natural key:
element-wise `m ↦ m^E mod pq`. -/
theorem encrypt_rsa_nat (E pq : ℕ) (hpq : 1 < pq) (l : List ℕ) :
    encrypt_rsa l ((E : ℤ), (pq : ℤ))
      = some ((l.map (fun m => m ^ E % pq)).map (Nat.cast : ℕ → ℤ)) := by
  induction l with
  | nil => rfl
  | cons a l ih =>
    rw [List.map_cons, List.map_cons]
    exact mapOption_cons_some _ _ _ _ _ (modexp_nat_spec a E pq hpq) ih

/-- Decryption of a list of natural ciphertext values under a natural key:
element-wise `m ↦ m^D mod pq`, clamped to the Unicode range. -/
theorem decrypt_rsa_nat (D pq : ℕ) (hpq : 1 < pq) (l : List ℕ) :
    decrypt_rsa (l.map (Nat.cast : ℕ → ℤ)) ((D : ℤ), (pq : ℤ))
      = some (l.map (fun m => if m ^ D % pq ≤ 1114111 then m ^ D % pq else 63)) := by
  induction l with
  | nil => rfl
  | cons a l ih =>
    have hstep : modular_exponentiation ((a : ℕ) : ℤ) (D : ℤ) (pq : ℤ)
        = some ((a ^ D % pq : ℕ) : ℤ) := modexp_nat_spec a D pq hpq
    have helem : (modular_exponentiation ((a : ℕ) : ℤ) (D : ℤ) (pq : ℤ)).map
        (fun v => if 0 ≤ v ∧ v ≤ 1114111 then v.toNat else 63)
        = some (if a ^ D % pq ≤ 1114111 then a ^ D % pq else 63) := by
      rw [hstep]
      simp only [Option.map_some']
      congr 1
      by_cases hle : a ^ D % pq ≤ 1114111
      · rw [if_pos ⟨by positivity, by exact_mod_cast hle⟩, if_pos hle, Int.toNat_natCast]
      · have hne : ¬ ((0 : ℤ) ≤ ((a ^ D % pq : ℕ) : ℤ) ∧ ((a ^ D % pq : ℕ) : ℤ) ≤ 1114111) := by
          rintro ⟨-, hcon⟩
          exact hle (by exact_mod_cast hcon)
        rw [if_neg hne, if_neg hle]
    rw [List.map_cons, List.map_cons]
    exact mapOption_cons_some _ _ _ _ _ helem (ih)

/-- Counterexample to claim C1: `generate_rsa_keys(4)` can draw the primes
`p = q = 3` (nothing forbids a collision) and the exponent `e = 3`, giving
keys `((3, 9), (3, 9))`.  The message `[chr(3)]` has its code point
`3 < n = 9`, yet it encrypts to `[0]` and decrypts back to `[chr(0)]`,
not `[chr(3)]`: the round trip fails even though both factors are prime,
because they are equal. -/
theorem C1_counterexample :
    generate_rsa_keys_returns 4 3 3 3 [] [] ((3, 9), (3, 9)) ∧
    Nat.Prime 3 ∧
    (∀ c ∈ [3], c < 3 * 3 ∧ c ≤ 1114111) ∧
    encrypt_rsa [3] ((3 : ℤ), (9 : ℤ)) = some [0] ∧
    decrypt_rsa [0] ((3 : ℤ), (9 : ℤ)) = some [0] ∧
    ([0] : List ℕ) ≠ [3] := by
  refine ⟨⟨⟨by norm_num, by simp [valid_draws], by decide⟩,
    ⟨by norm_num, by simp [valid_draws], by decide⟩, by decide, by decide, by decide, ?_⟩,
    by norm_num, by decide, by decide, by decide, by decide⟩
  simp [rsa_keys_from, explain_extended_gcd.eq_def]

/-- Claim C1 as amended: for every key pair returned by
`generate_rsa_keys` whose two generated factors `p`, `q` are prime AND
DISTINCT, and every message whose code points are all `< n` (and valid,
i.e. `≤ 0x10FFFF`), decrypting the encryption returns the message
exactly. -/
theorem C1_rsa_roundtrip (bits p q e : ℕ) (pws qws : List ℤ)
    (keys : (ℤ × ℤ) × (ℤ × ℤ)) (msg : List ℕ)
    (hgen : generate_rsa_keys_returns bits p q e pws qws keys)
    (hp : p.Prime) (hq : q.Prime) (hpq : p ≠ q)
    (hmsg : ∀ c ∈ msg, c < p * q ∧ c ≤ 1114111) :
    ∃ ct, encrypt_rsa msg keys.1 = some ct ∧ decrypt_rsa ct keys.2 = some msg := by
  obtain ⟨hgp, hgq, he2, heub, hco, hkeys⟩ := hgen
  have hphi := phi_two_le p q hp hq hpq
  obtain ⟨D, hkform, hD1, hDmod⟩ := rsa_keys_from_spec p q e
    (by have := hp.two_le; omega) (by have := hq.two_le; omega) hphi (by omega) hco
  have hpq4 : 4 ≤ p * q := by
    calc 4 = 2 * 2 := rfl
    _ ≤ p * q := Nat.mul_le_mul hp.two_le hq.two_le
  have hpq1 : 1 < p * q := by omega
  have hk1 : 1 ≤ e * D := by
    have := Nat.mul_pos (show 0 < e by omega) (show 0 < D by omega)
    omega
  have hfix : ∀ c ∈ msg,
      (if (c ^ e % (p * q)) ^ D % (p * q) ≤ 1114111
        then (c ^ e % (p * q)) ^ D % (p * q) else 63) = c := by
    intro c hc
    obtain ⟨hclt, hcle⟩ := hmsg c hc
    have h1 : (c ^ e % (p * q)) ^ D % (p * q) = c ^ (e * D) % (p * q) := by
      rw [← Nat.pow_mod, ← pow_mul]
    have h2 : c ^ (e * D) % (p * q) = c := by
      have h3 := rsa_pow_roundtrip p q (e * D) c hp hq hpq hk1 hDmod
      have h4 : c ^ (e * D) % (p * q) = c % (p * q) := h3
      rw [h4, Nat.mod_eq_of_lt hclt]
    rw [h1, h2, if_pos hcle]
  have hk1p : keys.1 = ((e : ℤ), ((p * q : ℕ) : ℤ)) := by rw [hkeys, hkform]
  have hk2p : keys.2 = ((D : ℤ), ((p * q : ℕ) : ℤ)) := by rw [hkeys, hkform]
  refine ⟨(msg.map (fun c => c ^ e % (p * q))).map (Nat.cast : ℕ → ℤ), ?_, ?_⟩
  · rw [hk1p]
    exact encrypt_rsa_nat e (p * q) hpq1 msg
  · rw [hk2p]
    rw [decrypt_rsa_nat D (p * q) hpq1 (msg.map (fun c => c ^ e % (p * q)))]
    congr 1
    rw [List.map_map]
    calc msg.map ((fun m => if m ^ D % (p * q) ≤ 1114111 then m ^ D % (p * q) else 63)
          ∘ (fun c => c ^ e % (p * q)))
        = msg.map id := List.map_congr_left (fun c hc => hfix c hc)
      _ = msg := List.map_id msg

/-- Witness for C1 as amended: the spec's own textbook scenario `p = 61`,
`q = 53`, `e = 17`, message `"A"` (code point 65). -/
theorem C1_witness :
    generate_rsa_keys_returns 12 61 53 17 [2, 2, 2, 2, 2] [2, 2, 2, 2, 2]
      ((17, 3233), (2753, 3233)) ∧
    Nat.Prime 61 ∧ Nat.Prime 53 ∧ 61 ≠ 53 ∧
    (∀ c ∈ [65], c < 61 * 53 ∧ c ≤ 1114111) ∧
    ∃ ct, encrypt_rsa [65] ((17, 3233), (2753, 3233)).1 = some ct ∧
      decrypt_rsa ct ((17, 3233), (2753, 3233)).2 = some [65] := by
  have hgen : generate_rsa_keys_returns 12 61 53 17 [2, 2, 2, 2, 2] [2, 2, 2, 2, 2]
      ((17, 3233), (2753, 3233)) := by
    refine ⟨⟨by norm_num, by simp [valid_draws], by decide⟩,
      ⟨by norm_num, by simp [valid_draws], by decide⟩, by decide, by decide, by decide, ?_⟩
    simp [rsa_keys_from, explain_extended_gcd.eq_def]
  exact ⟨hgen, by norm_num, by norm_num, by decide, by decide,
    C1_rsa_roundtrip 12 61 53 17 [2, 2, 2, 2, 2] [2, 2, 2, 2, 2]
      ((17, 3233), (2753, 3233)) [65] hgen (by norm_num) (by norm_num) (by decide) (by decide)⟩

/-! ### Completeness of `is_prime` on primes (no false negatives) -/

/-- The fueled factor-out-2 loop is correct when the fuel covers the
argument: it returns `(r, d)` with `m = 2^r * d` and `d` odd. -/
theorem split2Aux_spec : ∀ (fuel m : ℕ), 0 < m → m ≤ fuel →
    (split2Aux fuel m).2 % 2 = 1 ∧ m = 2 ^ (split2Aux fuel m).1 * (split2Aux fuel m).2 := by
  intro fuel
  induction fuel with
  | zero => intro m h1 h2; omega
  | succ fuel ih =>
    intro m h1 h2
    by_cases hev : m % 2 = 0
    · have hm2 : 0 < m / 2 := by omega
      have hle : m / 2 ≤ fuel := by omega
      obtain ⟨ho, he⟩ := ih (m / 2) hm2 hle
      have hunfold : split2Aux (fuel + 1) m
          = ((split2Aux fuel (m / 2)).1 + 1, (split2Aux fuel (m / 2)).2) := by
        simp only [split2Aux, hev, if_pos]
      rw [hunfold]
      refine ⟨ho, ?_⟩
      calc m = 2 * (m / 2) := by omega
        _ = 2 * (2 ^ (split2Aux fuel (m / 2)).1 * (split2Aux fuel (m / 2)).2) := by rw [← he]
        _ = 2 ^ ((split2Aux fuel (m / 2)).1 + 1) * (split2Aux fuel (m / 2)).2 := by ring
    · have hunfold : split2Aux (fuel + 1) m = (0, m) := by
        simp only [split2Aux, hev, if_neg, if_false]
      rw [hunfold]
      exact ⟨by omega, by ring⟩

/-- `split2 m` for positive `m`: `m = 2^r * d` with `d` odd. -/
theorem split2_spec (m : ℕ) (h : 0 < m) :
    (split2 m).2 % 2 = 1 ∧ m = 2 ^ (split2 m).1 * (split2 m).2 :=
  split2Aux_spec m m h le_rfl

/-- If some later point of the squaring chain
`x_i = A^(2^i * d) mod N` hits `N - 1` within the remaining `k` squarings,
the inner Miller-Rabin loop reports it. -/
theorem mrInner_hits (N d A : ℕ) (hN : 1 < N) : ∀ (k i : ℕ),
    (∃ j, i + 1 ≤ j ∧ j ≤ i + k ∧ A ^ (2 ^ j * d) % N = N - 1) →
    mrInner (N : ℤ) ((A ^ (2 ^ i * d) % N : ℕ) : ℤ) k = true := by
  intro k
  induction k with
  | zero =>
    rintro i ⟨j, hj1, hj2, -⟩
    omega
  | succ k ih =>
    rintro i ⟨j, hj1, hj2, hjval⟩
    have hx : modular_exponentiation ((A ^ (2 ^ i * d) % N : ℕ) : ℤ) 2 (N : ℤ)
        = some (((A ^ (2 ^ i * d) % N) ^ 2 % N : ℕ) : ℤ) := by
      have h := modexp_nat_spec (A ^ (2 ^ i * d) % N) 2 N hN
      exact_mod_cast h
    have hsq : (A ^ (2 ^ i * d) % N) ^ 2 % N = A ^ (2 ^ (i + 1) * d) % N := by
      rw [← Nat.pow_mod, ← pow_mul]
      congr 1
      ring
    have hunfold : mrInner (N : ℤ) ((A ^ (2 ^ i * d) % N : ℕ) : ℤ) (k + 1)
        = if ((A ^ (2 ^ (i + 1) * d) % N : ℕ) : ℤ) = (N : ℤ) - 1 then true
          else mrInner (N : ℤ) ((A ^ (2 ^ (i + 1) * d) % N : ℕ) : ℤ) k := by
      simp only [mrInner, hx, hsq]
    rw [hunfold]
    by_cases hhit : A ^ (2 ^ (i + 1) * d) % N = N - 1
    · rw [if_pos (by omega)]
    · have hne : ¬ ((A ^ (2 ^ (i + 1) * d) % N : ℕ) : ℤ) = (N : ℤ) - 1 := by omega
      rw [if_neg hne]
      apply ih (i + 1)
      have hjne : j ≠ i + 1 := fun hji => hhit (by rw [← hji]; exact hjval)
      exact ⟨j, by omega, by omega, hjval⟩

/-- A prime `N ≥ 5` passes every Miller-Rabin round, whatever witness in
`[2, N-2]` is drawn: either `a^d ≡ 1`, or some value of the squaring chain
`a^(2^i d)` equals `N - 1 (mod N)` early enough for the loop to see it. -/
theorem mr_round_passes (N : ℕ) (hN : N.Prime) (hN5 : 5 ≤ N) (r d : ℕ)
    (hrd : N - 1 = 2 ^ r * d) (hdodd : d % 2 = 1) (hr : 1 ≤ r)
    (a : ℤ) (ha2 : 2 ≤ a) (haN : a ≤ (N : ℤ) - 2) :
    mrRound (N : ℤ) (d : ℤ) r a = true := by
  haveI : Fact N.Prime := ⟨hN⟩
  haveI : NeZero N := ⟨by omega⟩
  set A : ℕ := a.toNat with hA
  have haA : a = (A : ℤ) := (Int.toNat_of_nonneg (by omega)).symm
  have hA2 : 2 ≤ A := by omega
  have hAN : A ≤ N - 2 := by omega
  have hα : (A : ZMod N) ≠ 0 := by
    rw [Ne, ZMod.natCast_zmod_eq_zero_iff_dvd]
    intro hdvd
    have := Nat.le_of_dvd (by omega) hdvd
    omega
  have hfermat : (A : ZMod N) ^ (N - 1) = 1 := ZMod.pow_card_sub_one_eq_one hα
  have hmodcast : ∀ k : ℕ, ((A ^ k % N : ℕ) : ZMod N) = (A : ZMod N) ^ k := by
    intro k
    rw [ZMod.natCast_mod, Nat.cast_pow]
  have hvalbound : ∀ k : ℕ, A ^ k % N < N := fun k => Nat.mod_lt _ (by omega)
  have hnat_of_zmod : ∀ (x y : ℕ), x < N → y < N → ((x : ZMod N) = (y : ZMod N)) → x = y := by
    intro x y hx hy hxy
    have h := congrArg ZMod.val hxy
    rwa [ZMod.val_cast_of_lt hx, ZMod.val_cast_of_lt hy] at h
  have hneg1 : ((N - 1 : ℕ) : ZMod N) = -1 := by
    rw [Nat.cast_sub (by omega : 1 ≤ N), Nat.cast_one, ZMod.natCast_self, zero_sub]
  have hex : ∃ i, (A : ZMod N) ^ (2 ^ i * d) = 1 := ⟨r, by rw [← hrd]; exact hfermat⟩
  classical
  set i0 := Nat.find hex with hi0
  have hspec : (A : ZMod N) ^ (2 ^ i0 * d) = 1 := Nat.find_spec hex
  have hmin : ∀ j, j < i0 → (A : ZMod N) ^ (2 ^ j * d) ≠ 1 := fun j hj => Nat.find_min hex hj
  have hi0r : i0 ≤ r := Nat.find_min' hex (by rw [← hrd]; exact hfermat)
  have hx0 : modular_exponentiation a (d : ℤ) (N : ℤ) = some ((A ^ d % N : ℕ) : ℤ) := by
    rw [haA]
    exact modexp_nat_spec A d N (by omega)
  have hstep : mrRound (N : ℤ) (d : ℤ) r a
      = if ((A ^ d % N : ℕ) : ℤ) = 1 ∨ ((A ^ d % N : ℕ) : ℤ) = (N : ℤ) - 1 then true
        else mrInner (N : ℤ) ((A ^ d % N : ℕ) : ℤ) (r - 1) := by
    simp only [mrRound, hx0]
  rw [hstep]
  by_cases hca : ((A ^ d % N : ℕ) : ℤ) = 1 ∨ ((A ^ d % N : ℕ) : ℤ) = (N : ℤ) - 1
  · rw [if_pos hca]
  · rw [if_neg hca]
    push_neg at hca
    obtain ⟨hca1, hca2⟩ := hca
    have hna1 : A ^ d % N ≠ 1 := fun h => hca1 (by rw [h]; norm_num)
    have hna2 : A ^ d % N ≠ N - 1 := fun h => hca2 (by rw [h]; omega)
    have hi0pos : 1 ≤ i0 := by
      rcases Nat.eq_zero_or_pos i0 with h0 | h
      · exfalso
        have hAd1 : (A : ZMod N) ^ d = 1 := by
          have h1 := hspec
          rw [h0, pow_zero, one_mul] at h1
          exact h1
        apply hna1
        apply hnat_of_zmod _ _ (hvalbound d) (by omega)
        rw [hmodcast d, hAd1, Nat.cast_one]
      · exact h
    set j := i0 - 1 with hj
    have hij : i0 = j + 1 := by omega
    have hb2 : ((A : ZMod N) ^ (2 ^ j * d)) ^ 2 = 1 := by
      rw [← pow_mul]
      have harith : 2 ^ j * d * 2 = 2 ^ (j + 1) * d := by ring
      rw [harith, ← hij]
      exact hspec
    have hbne : (A : ZMod N) ^ (2 ^ j * d) ≠ 1 := hmin j (by omega)
    have hbneg : (A : ZMod N) ^ (2 ^ j * d) = -1 := by
      have hfac : ((A : ZMod N) ^ (2 ^ j * d) - 1) * ((A : ZMod N) ^ (2 ^ j * d) + 1) = 0 := by
        calc ((A : ZMod N) ^ (2 ^ j * d) - 1) * ((A : ZMod N) ^ (2 ^ j * d) + 1)
            = ((A : ZMod N) ^ (2 ^ j * d)) ^ 2 - 1 := by ring
          _ = 0 := by rw [hb2]; ring
      rcases mul_eq_zero.mp hfac with h | h
      · exact absurd (sub_eq_zero.mp h) hbne
      · exact eq_neg_of_add_eq_zero_left h
    have hXj : A ^ (2 ^ j * d) % N = N - 1 := by
      apply hnat_of_zmod _ _ (hvalbound _) (by omega)
      rw [hmodcast, hbneg, hneg1]
    have hj1 : 1 ≤ j := by
      rcases Nat.eq_zero_or_pos j with h0 | h
      · exfalso
        apply hna2
        have hXj0 := hXj
        rw [h0, pow_zero, one_mul] at hXj0
        exact hXj0
      · exact h
    have h20 : 2 ^ (0 : ℕ) * d = d := by norm_num
    have hgoal := mrInner_hits N d A (by omega) (r - 1) 0 ⟨j, by omega, by omega, hXj⟩
    rw [h20] at hgoal
    exact hgoal

/-- Claim C10: `is_prime` has no false negatives — for every prime `N`,
any number of rounds and any sequence of witness draws in the range
`randint(2, n - 2)` produces, `is_prime` returns `True`; only composites
can ever be rejected. -/
theorem C10_is_prime_complete (N : ℕ) (ws : List ℤ) (hp : N.Prime)
    (hw : valid_draws (N : ℤ) ws) :
    is_prime (N : ℤ) ws = true := by
  have h2 := hp.two_le
  rcases le_or_lt N 3 with h3 | h3
  · unfold is_prime
    rw [if_neg (by omega : ¬ (N : ℤ) ≤ 1), if_pos (by omega : (N : ℤ) ≤ 3)]
  · have hN5 : 5 ≤ N := by
      rcases Nat.lt_or_ge N 5 with h | h
      · exfalso
        have h4 : N = 4 := by omega
        rw [h4] at hp
        norm_num at hp
      · exact h
    have hodd : N % 2 = 1 := by
      rcases Nat.mod_two_eq_zero_or_one N with h | h
      · exfalso
        have hdvd : 2 ∣ N := Nat.dvd_of_mod_eq_zero h
        rcases (Nat.Prime.eq_one_or_self_of_dvd hp 2 hdvd) with h2' | h2' <;> omega
      · exact h
    obtain ⟨hsodd, hseq⟩ := split2_spec (N - 1) (by omega)
    have hr1 : 1 ≤ (split2 (N - 1)).1 := by
      by_contra h0
      push_neg at h0
      have hz : (split2 (N - 1)).1 = 0 := by omega
      rw [hz, pow_zero, one_mul] at hseq
      omega
    unfold is_prime
    rw [if_neg (by omega : ¬ (N : ℤ) ≤ 1), if_neg (by omega : ¬ (N : ℤ) ≤ 3),
      if_neg (by omega : ¬ (N : ℤ) % 2 = 0)]
    show ws.all (mrRound (N : ℤ) ((split2 ((N : ℤ) - 1).toNat).2 : ℤ)
      (split2 ((N : ℤ) - 1).toNat).1) = true
    have htn : ((N : ℤ) - 1).toNat = N - 1 := by omega
    rw [htn, List.all_eq_true]
    intro a ha
    obtain ⟨ha2, haN⟩ := hw a ha
    exact mr_round_passes N hp hN5 (split2 (N - 1)).1 (split2 (N - 1)).2
      hseq hsodd hr1 a ha2 haN

/-- Witness for C10 at the prime 7 with the full witness range drawn. -/
theorem C10_witness :
    Nat.Prime 7 ∧ valid_draws ((7 : ℕ) : ℤ) [2, 3, 4, 5] ∧
    is_prime ((7 : ℕ) : ℤ) [2, 3, 4, 5] = true :=
  ⟨by norm_num, by simp [valid_draws], by
    have hv : valid_draws ((7 : ℕ) : ℤ) [2, 3, 4, 5] := by simp [valid_draws]
    exact C10_is_prime_complete 7 [2, 3, 4, 5] (by norm_num) hv⟩

end RSA
